import Mathlib

/-!
Shallow embedding of the `cpp-simple-vector` repository.

`ArrayPtr` models `src/simple-vector/array_ptr.h`: the owned heap buffer
is `Option (List a)`, where `none` is the null pointer and `some l` is an
allocation holding the elements of `l` (the allocation length is
`l.length`).  `SimpleVector` models `src/simple-vector/simple_vector.h`
with its three data members `data_`, `size_` and `capacity_`.  Sizes are
modelled as `Nat`; iterator arguments of `Insert` and `Erase` are modelled
as offsets from `begin()`, which is how the source itself immediately
converts them (`auto shift = pos - begin();`).
-/

/-- Effect of `std::copy(src.begin(), src.end(), dst + start)` on a raw
buffer holding `dst`, as a pure list operation.  `std::copy_backward`
with the matching destination offset computes the same values; the choice
of direction in the source only resolves aliasing, which the functional
model resolves by construction. -/
def writeRange {α : Type} (dst : List α) (start : Nat) (src : List α) : List α :=
  dst.take start ++ src ++ dst.drop (start + src.length)

/-- Model of `ArrayPtr<Type>`. -/
structure ArrayPtr (α : Type) where
  raw_ptr : Option (List α)
deriving DecidableEq

namespace ArrayPtr

variable {α : Type}

/-- Default constructor: null pointer. -/
def nullPtr : ArrayPtr α := ⟨none⟩

/-- `ArrayPtr(size_t size)`: allocates `new Type[size]` (all slots
default-constructed) when `size > 0`, otherwise stays null. -/
def ofSize [Inhabited α] (size : Nat) : ArrayPtr α :=
  if 0 < size then ⟨some (List.replicate size default)⟩ else ⟨none⟩

/-- `ArrayPtr(size_t size)` under an allocation oracle: `allocOk n = false`
means `new Type[n]` fails with `bad_alloc` (`none`).  Requesting zero
elements never fails because no allocation is made. -/
def ofSizeTry [Inhabited α] (allocOk : Nat → Bool) (size : Nat) :
    Option (ArrayPtr α) :=
  if 0 < size then
    if allocOk size then some ⟨some (List.replicate size default)⟩ else none
  else some ⟨none⟩

/-- The buffer contents as a list (empty when null). -/
def contents (a : ArrayPtr α) : List α := a.raw_ptr.getD []

/-- `operator[]` (unchecked read). -/
def get [Inhabited α] (a : ArrayPtr α) (i : Nat) : α := a.contents.getD i default

/-- Writing one slot through `operator[]`: `a[i] = x`. -/
def setAt (a : ArrayPtr α) (i : Nat) (x : α) : ArrayPtr α :=
  ⟨a.raw_ptr.map fun l => l.set i x⟩

/-- `std::copy(src.begin(), src.end(), a.Get() + start)`. -/
def write (a : ArrayPtr α) (start : Nat) (src : List α) : ArrayPtr α :=
  ⟨a.raw_ptr.map fun l => writeRange l start src⟩

/-- Move assignment between distinct objects:
`raw_ptr_ = std::exchange(other.raw_ptr_, nullptr);`.  Returns the pair
(receiver afterwards, source afterwards). -/
def moveAssign (_a b : ArrayPtr α) : ArrayPtr α × ArrayPtr α :=
  (⟨b.raw_ptr⟩, ⟨none⟩)

end ArrayPtr

/-- Error raised by the checked accessor (`std::out_of_range`). -/
inductive VecError where
  | outOfRange
deriving DecidableEq

/-- Error raised by a failed allocation (`std::bad_alloc`). -/
inductive AllocError where
  | badAlloc
deriving DecidableEq

/-- Model of `SimpleVector<Type>`: data members `data_`, `size_`,
`capacity_`. -/
structure SimpleVector (α : Type) where
  data_ : ArrayPtr α
  size_ : Nat
  capacity_ : Nat
deriving DecidableEq

namespace SimpleVector

variable {α : Type} [Inhabited α]

/-- `SimpleVector()` (default constructor). -/
def empty : SimpleVector α := ⟨ArrayPtr.nullPtr, 0, 0⟩

/-- The raw buffer contents. -/
def buf (v : SimpleVector α) : List α := v.data_.contents

/-- The logically valid elements: indices `[0, size_)` of the buffer. -/
def toList (v : SimpleVector α) : List α := v.buf.take v.size_

/-- `operator[]` (unchecked access; precondition `i < size_`). -/
def idx (v : SimpleVector α) (i : Nat) : α := v.data_.get i

/-- `GetSize()`. -/
def GetSize (v : SimpleVector α) : Nat := v.size_

/-- `GetCapacity()`. -/
def GetCapacity (v : SimpleVector α) : Nat := v.capacity_

/-- `IsEmpty()`: `!size_`. -/
def IsEmpty (v : SimpleVector α) : Bool := v.size_ == 0

/-- `RangeCheck(index)`: throws `out_of_range` when `index >= size_`. -/
def RangeCheck (v : SimpleVector α) (index : Nat) : Except VecError Unit :=
  if v.size_ ≤ index then Except.error VecError.outOfRange else Except.ok ()

/-- `At(index)`: `RangeCheck(index); return data_[index];`. -/
def At (v : SimpleVector α) (index : Nat) : Except VecError α :=
  match v.RangeCheck index with
  | Except.error e => Except.error e
  | Except.ok _ => Except.ok (v.idx index)

/-- `Clear()`: `size_ = 0`, storage retained. -/
def Clear (v : SimpleVector α) : SimpleVector α := ⟨v.data_, 0, v.capacity_⟩

/-- `FillDefault(begin, end)`: assigns `Type()` to the slots `[b, e)`. -/
def FillDefault (a : ArrayPtr α) (b e : Nat) : ArrayPtr α :=
  a.write b (List.replicate (e - b) default)

/-- `SimpleVector(size_t size, const Type& value)`: fresh buffer of `size`
slots filled with `value`, swapped in, then `size_ = capacity_ = size`. -/
def ofSizeValue (size : Nat) (value : α) : SimpleVector α :=
  ⟨(ArrayPtr.ofSize size).write 0 (List.replicate size value), size, size⟩

/-- `SimpleVector(size_t size)`, delegating to `SimpleVector(size, Type())`. -/
def ofSize (size : Nat) : SimpleVector α := ofSizeValue size default

/-- `Construct(other, size)`: fresh buffer of `size` slots, the elements of
`other` copied to its front, then `size_ = capacity_ = size`. -/
def construct (other : List α) (size : Nat) : SimpleVector α :=
  ⟨(ArrayPtr.ofSize size).write 0 other, size, size⟩

/-- `SimpleVector(std::initializer_list<Type>)`: `Construct(init, init.size())`. -/
def fromList (init : List α) : SimpleVector α := construct init init.length

/-- Copy constructor: `Construct(other, other.size_)`, which copies the
`size_` elements `other.begin() .. other.end()`. -/
def copyCtor (other : SimpleVector α) : SimpleVector α :=
  construct other.toList other.size_

/-- `Resize(new_size)`. -/
def Resize (v : SimpleVector α) (new_size : Nat) : SimpleVector α :=
  if new_size ≤ v.capacity_ then
    if v.size_ < new_size then
      ⟨FillDefault v.data_ v.size_ new_size, new_size, v.capacity_⟩
    else
      ⟨v.data_, new_size, v.capacity_⟩
  else
    let new_data := (ArrayPtr.ofSize new_size).write 0 v.toList
    ⟨FillDefault new_data v.size_ new_size, new_size, new_size⟩

/-- `Reserve(new_capacity)`. -/
def Reserve (v : SimpleVector α) (new_capacity : Nat) : SimpleVector α :=
  if new_capacity ≤ v.capacity_ then v
  else
    ⟨(ArrayPtr.ofSize new_capacity).write 0 (v.buf.take (min new_capacity v.size_)),
      v.size_, new_capacity⟩

/-- `SimpleVector(ReserveProxyObj)`: default-construct, then `Reserve`. -/
def reserveCtor (n : Nat) : SimpleVector α := Reserve empty n

/-- `Recreate(new_capacity, pos, item)`: fresh buffer of `new_capacity`
slots; old elements `[0, pos)` copied to the front; `item` written at
`pos`; old elements `[pos, size_)` copied to `pos + 1`; the buffer swapped
in; then `capacity_ = new_capacity; ++size_;`. -/
def Recreate (v : SimpleVector α) (new_capacity pos : Nat) (item : α) :
    SimpleVector α :=
  let nd := (ArrayPtr.ofSize new_capacity).write 0 (v.buf.take pos)
  let nd := nd.setAt pos item
  let nd := nd.write (pos + 1) ((v.buf.take v.size_).drop pos)
  ⟨nd, v.size_ + 1, new_capacity⟩

/-- `PushBack(Type&&)` (the copying overload delegates here with a fresh
copy of the item). -/
def PushBack (v : SimpleVector α) (item : α) : SimpleVector α :=
  if v.size_ = v.capacity_ then
    v.Recreate (if v.capacity_ = 0 then 1 else v.capacity_ * 2) v.size_ item
  else
    ⟨v.data_.setAt v.size_ item, v.size_ + 1, v.capacity_⟩

/-- `InsertInt(pos, value)` with `pos` given as the offset `shift` from
`begin()` (both `Insert` overloads delegate here).  In the non-full branch
`std::copy_backward` moves the old elements `[shift, size_)` into the
slots `[shift + 1, size_ + 1)` and the value is then written at `shift`.
Returns the new state and the offset of the returned iterator. -/
def InsertInt (v : SimpleVector α) (shift : Nat) (value : α) :
    SimpleVector α × Nat :=
  if v.size_ = v.capacity_ then
    (v.Recreate (if v.capacity_ = 0 then 1 else v.capacity_ * 2) shift value, shift)
  else
    let d := v.data_.write (shift + 1) ((v.buf.take v.size_).drop shift)
    ((⟨d.setAt shift value, v.size_ + 1, v.capacity_⟩ : SimpleVector α), shift)

/-- `PopBack()` (precondition `size_ > 0`). -/
def PopBack (v : SimpleVector α) : SimpleVector α :=
  ⟨v.data_, v.size_ - 1, v.capacity_⟩

/-- `Erase(pos)` with `pos` given as the offset `shift` from `begin()`:
the elements `[shift + 1, size_)` are moved one slot to the left, then
`--size_`.  Returns the new state and the offset of the returned
iterator. -/
def Erase (v : SimpleVector α) (shift : Nat) : SimpleVector α × Nat :=
  (⟨v.data_.write shift ((v.buf.take v.size_).drop (shift + 1)),
      v.size_ - 1, v.capacity_⟩, shift)

/-- `swap(other)`: exchanges buffers, sizes and capacities.  Returns
(receiver afterwards, other afterwards). -/
def swapOp (a b : SimpleVector α) : SimpleVector α × SimpleVector α := (b, a)

/-- Move constructor: default-construct `this`, then `this->swap(other)`.
Returns (new object, source afterwards). -/
def moveCtor (other : SimpleVector α) : SimpleVector α × SimpleVector α :=
  swapOp empty other

/-- Copy assignment `*this = rhs`: `SimpleVector tmp(rhs); swap(tmp);`.
The old state of `this` is discarded with `tmp`; there is no self-check,
so `rhs` may be `this` itself. -/
def copyAssign (_this rhs : SimpleVector α) : SimpleVector α := copyCtor rhs

/-- Defaulted move assignment `*this = std::move(rhs)` between distinct
objects, member by member: `data_` by the `ArrayPtr` move assignment
(which nulls the source pointer) and the scalar members `size_` and
`capacity_` by plain copy, so the source scalars keep their old values.
Returns (receiver afterwards, source afterwards). -/
def moveAssign (a b : SimpleVector α) : SimpleVector α × SimpleVector α :=
  let p := ArrayPtr.moveAssign a.data_ b.data_
  (⟨p.1, b.size_, b.capacity_⟩, ⟨p.2, b.size_, b.capacity_⟩)

/-- `operator==`: equal sizes, and `std::equal(lhs.begin(), lhs.end(),
rhs.begin())`, which compares the first `lhs.GetSize()` elements of each
buffer. -/
def eqOp [DecidableEq α] (l r : SimpleVector α) : Bool :=
  l.GetSize == r.GetSize && l.toList == r.buf.take l.size_

/-- States whose representation matches what the class maintains:
`size_ ≤ capacity_`, the allocation holds exactly `capacity_` slots, and
the pointer is null exactly when `capacity_` is zero. -/
def WellFormed (v : SimpleVector α) : Prop :=
  v.size_ ≤ v.capacity_ ∧ v.buf.length = v.capacity_ ∧
    (v.data_.raw_ptr.isNone = true ↔ v.capacity_ = 0)

instance (v : SimpleVector α) : Decidable v.WellFormed :=
  decidable_of_iff
    (v.size_ ≤ v.capacity_ ∧ v.buf.length = v.capacity_ ∧
      (v.data_.raw_ptr.isNone = true ↔ v.capacity_ = 0)) Iff.rfl

/-- The documented invariant: `capacity == 0` iff the internal buffer is
empty (the pointer is null). -/
def CapacityBufferInv (v : SimpleVector α) : Prop :=
  v.capacity_ = 0 ↔ v.data_.raw_ptr.isNone = true

instance (v : SimpleVector α) : Decidable v.CapacityBufferInv :=
  decidable_of_iff (v.capacity_ = 0 ↔ v.data_.raw_ptr.isNone = true) Iff.rfl

/-- `Recreate` under an allocation oracle.  The allocation of the new
buffer is the first statement of the function; when it throws, `this` has
not been touched, so the caller observes the unchanged state paired with
the propagated error. -/
def RecreateTry (allocOk : Nat → Bool) (v : SimpleVector α)
    (new_capacity pos : Nat) (item : α) : SimpleVector α × Option AllocError :=
  match ArrayPtr.ofSizeTry allocOk new_capacity with
  | none => (v, some AllocError.badAlloc)
  | some nd0 =>
    let nd := nd0.write 0 (v.buf.take pos)
    let nd := nd.setAt pos item
    let nd := nd.write (pos + 1) ((v.buf.take v.size_).drop pos)
    (⟨nd, v.size_ + 1, new_capacity⟩, none)

/-- `PushBack` under an allocation oracle. -/
def PushBackTry (allocOk : Nat → Bool) (v : SimpleVector α) (item : α) :
    SimpleVector α × Option AllocError :=
  if v.size_ = v.capacity_ then
    RecreateTry allocOk v (if v.capacity_ = 0 then 1 else v.capacity_ * 2)
      v.size_ item
  else
    (⟨v.data_.setAt v.size_ item, v.size_ + 1, v.capacity_⟩, none)

/-- `InsertInt` under an allocation oracle (iterator offset omitted). -/
def InsertTry (allocOk : Nat → Bool) (v : SimpleVector α) (shift : Nat)
    (value : α) : SimpleVector α × Option AllocError :=
  if v.size_ = v.capacity_ then
    RecreateTry allocOk v (if v.capacity_ = 0 then 1 else v.capacity_ * 2)
      shift value
  else
    let d := v.data_.write (shift + 1) ((v.buf.take v.size_).drop shift)
    ((⟨d.setAt shift value, v.size_ + 1, v.capacity_⟩ : SimpleVector α), none)

/-- `Resize` under an allocation oracle: only the `new_size > capacity_`
branch allocates, and it does so before touching `this`. -/
def ResizeTry (allocOk : Nat → Bool) (v : SimpleVector α) (new_size : Nat) :
    SimpleVector α × Option AllocError :=
  if new_size ≤ v.capacity_ then (v.Resize new_size, none)
  else
    match ArrayPtr.ofSizeTry allocOk new_size with
    | none => (v, some AllocError.badAlloc)
    | some nd0 =>
      let nd := nd0.write 0 v.toList
      (⟨FillDefault nd v.size_ new_size, new_size, new_size⟩, none)

/-- `Reserve` under an allocation oracle: only the `new_capacity >
capacity_` branch allocates, and it does so before touching `this`. -/
def ReserveTry (allocOk : Nat → Bool) (v : SimpleVector α)
    (new_capacity : Nat) : SimpleVector α × Option AllocError :=
  if new_capacity ≤ v.capacity_ then (v, none)
  else
    match ArrayPtr.ofSizeTry allocOk new_capacity with
    | none => (v, some AllocError.badAlloc)
    | some nd0 =>
      (⟨nd0.write 0 (v.buf.take (min new_capacity v.size_)),
          v.size_, new_capacity⟩, none)

end SimpleVector

open SimpleVector

/-! Helper lemmas about the embedding. -/

theorem writeRange_nil {α : Type} (l : List α) (k : Nat) : writeRange l k [] = l := by
  simp [writeRange]

theorem writeRange_zero {α : Type} (l src : List α) :
    writeRange l 0 src = src ++ l.drop src.length := by
  simp [writeRange]

theorem length_take_of_le {α : Type} {l : List α} {n : Nat} (h : n ≤ l.length) :
    (l.take n).length = n := by
  simp
  omega

theorem toList_length {α : Type} [Inhabited α] (v : SimpleVector α)
    (h : v.WellFormed) : v.toList.length = v.size_ := by
  have h1 := h.1
  have h2 := h.2.1
  simp [SimpleVector.toList, h2]
  omega

theorem construct_spec {α : Type} [Inhabited α] (l : List α) :
    (construct l l.length : SimpleVector α).toList = l ∧
    (construct l l.length : SimpleVector α).size_ = l.length ∧
    (construct l l.length : SimpleVector α).capacity_ = l.length ∧
    (construct l l.length : SimpleVector α).WellFormed := by
  cases l with
  | nil =>
    simp [SimpleVector.construct, ArrayPtr.ofSize, ArrayPtr.write,
      SimpleVector.toList, SimpleVector.buf, ArrayPtr.contents,
      SimpleVector.WellFormed]
  | cons a t =>
    have hpos : 0 < (a :: t).length := by simp
    simp [SimpleVector.construct, ArrayPtr.ofSize, ArrayPtr.write,
      SimpleVector.toList, SimpleVector.buf, ArrayPtr.contents,
      SimpleVector.WellFormed, writeRange]

theorem copyCtor_spec {α : Type} [Inhabited α] (v : SimpleVector α)
    (h : v.WellFormed) :
    (copyCtor v).toList = v.toList ∧ (copyCtor v).size_ = v.size_ ∧
    (copyCtor v).capacity_ = v.size_ ∧ (copyCtor v).WellFormed := by
  have hl : v.toList.length = v.size_ := toList_length v h
  have hc := construct_spec (α := α) v.toList
  rw [hl] at hc
  exact ⟨hc.1, hc.2.1, hc.2.2.1, hc.2.2.2⟩

theorem eqOp_of_toList_eq {α : Type} [Inhabited α] [DecidableEq α]
    (l r : SimpleVector α) (hsz : l.size_ = r.size_) (htl : l.toList = r.toList) :
    eqOp l r = true := by
  simp [SimpleVector.eqOp, SimpleVector.GetSize, hsz, htl]
  rw [← SimpleVector.toList]

/-- C4: the checked accessor `At(i)` raises `OutOfRange` exactly when
`i >= size`, and for `i < size` it returns the same element as the
unchecked `operator[]`; being a pure function of the state, it leaves the
array unchanged. -/
theorem C4_checked_access {α : Type} [Inhabited α] (v : SimpleVector α) (i : Nat) :
    v.At i = if i < v.size_ then Except.ok (v.idx i)
             else Except.error VecError.outOfRange := by
  unfold SimpleVector.At SimpleVector.RangeCheck
  rcases Nat.lt_or_ge i v.size_ with h | h
  · simp [h, Nat.not_le.mpr h]
  · simp [Nat.not_lt.mpr h, h]

/-- C9: move construction hands the whole state (elements, size and
capacity) to the new object and leaves the source empty with size 0,
capacity 0 and a null buffer. -/
theorem C9_move_construct {α : Type} [Inhabited α] (a : SimpleVector α) :
    (moveCtor a).1 = a ∧ (moveCtor a).2.size_ = 0 ∧
    (moveCtor a).2.capacity_ = 0 ∧ (moveCtor a).2.data_.raw_ptr = none :=
  ⟨rfl, rfl, rfl, rfl⟩

/-- C1: the documented invariant (capacity is zero iff the buffer is null)
is broken by a reachable state.  After `SimpleVector<int> a;
SimpleVector<int> b(1, 7); a = std::move(b);` the defaulted move
assignment nulls the buffer pointer of `b` but copies the scalar members,
so `b` keeps `size_ == 1` and `capacity_ == 1` with a null buffer. -/
theorem C1_invariant_broken_by_move_assign :
    ((moveAssign (empty : SimpleVector Int) (ofSizeValue 1 7)).2.capacity_ = 1 ∧
     (moveAssign (empty : SimpleVector Int) (ofSizeValue 1 7)).2.size_ = 1 ∧
     (moveAssign (empty : SimpleVector Int) (ofSizeValue 1 7)).2.data_.raw_ptr = none) ∧
    ¬ (moveAssign (empty : SimpleVector Int) (ofSizeValue 1 7)).2.CapacityBufferInv := by
  decide

/-- C2 counterexample: for `A` of size 1 and capacity 2 (reserve 2, then
one `PushBack`), the copy has capacity 1, not 2 — the copy constructor
allocates `other.size_` slots, not `other.capacity_`. -/
theorem C2_counterexample_capacity :
    (copyCtor ((reserveCtor 2 : SimpleVector Int).PushBack 5)).capacity_ = 1 ∧
    ((reserveCtor 2 : SimpleVector Int).PushBack 5).capacity_ = 2 := by
  decide

/-- C2 (amended): copy construction yields `B == A` under the equality
contract, with equal sizes and equal logical contents, and the capacity of
the copy equal to the SIZE of the source; the copy is built in a fresh
well-formed buffer, so later mutation of the copy cannot touch the
source. -/
theorem C2_copy_construct {α : Type} [Inhabited α] [DecidableEq α]
    (v : SimpleVector α) (h : v.WellFormed) :
    eqOp (copyCtor v) v = true ∧ (copyCtor v).size_ = v.size_ ∧
    (copyCtor v).toList = v.toList ∧ (copyCtor v).capacity_ = v.size_ ∧
    (copyCtor v).WellFormed := by
  obtain ⟨htl, hsz, hcap, hwf⟩ := copyCtor_spec v h
  exact ⟨eqOp_of_toList_eq _ _ hsz htl, hsz, htl, hcap, hwf⟩

theorem C2_copy_construct_witness :
    (fromList [(1 : Int), 2]).WellFormed ∧
    (eqOp (copyCtor (fromList [(1 : Int), 2])) (fromList [(1 : Int), 2]) = true ∧
     (copyCtor (fromList [(1 : Int), 2])).size_ = (fromList [(1 : Int), 2]).size_ ∧
     (copyCtor (fromList [(1 : Int), 2])).toList = (fromList [(1 : Int), 2]).toList ∧
     (copyCtor (fromList [(1 : Int), 2])).capacity_ = (fromList [(1 : Int), 2]).size_ ∧
     (copyCtor (fromList [(1 : Int), 2])).WellFormed) :=
  ⟨by decide, C2_copy_construct (fromList [(1 : Int), 2]) (by decide)⟩

/-- C10 counterexample: self-assignment `a = a` on an array with size 0
and capacity 5 (built by reserving 5) shrinks the capacity to 0, so the
capacity-zero-ness of `a` is not preserved. -/
theorem C10_counterexample_self_assign :
    (reserveCtor 5 : SimpleVector Int).capacity_ = 5 ∧
    (copyAssign (reserveCtor 5 : SimpleVector Int) (reserveCtor 5)).capacity_ = 0 := by
  decide

/-- C10 (amended): copy assignment `a = b` (including the self case
`a = b = v`) makes the target equal to `b` under the equality contract,
with the size and elements of `b`, and sets the capacity of the target to
the SIZE of `b` (so capacity-zero-ness of a self-assigned array is
preserved only when its size is nonzero or its capacity was zero); `b`
itself is read through a const reference and unchanged. -/
theorem C10_copy_assign {α : Type} [Inhabited α] [DecidableEq α]
    (a b : SimpleVector α) (h : b.WellFormed) :
    eqOp (copyAssign a b) b = true ∧ (copyAssign a b).size_ = b.size_ ∧
    (copyAssign a b).toList = b.toList ∧ (copyAssign a b).capacity_ = b.size_ ∧
    (copyAssign a b).WellFormed := by
  obtain ⟨htl, hsz, hcap, hwf⟩ := copyCtor_spec b h
  exact ⟨eqOp_of_toList_eq _ _ hsz htl, hsz, htl, hcap, hwf⟩

theorem C10_copy_assign_witness :
    (reserveCtor 5 : SimpleVector Int).WellFormed ∧
    (eqOp (copyAssign (reserveCtor 5 : SimpleVector Int) (reserveCtor 5))
        (reserveCtor 5) = true ∧
     (copyAssign (reserveCtor 5 : SimpleVector Int) (reserveCtor 5)).size_ =
        (reserveCtor 5 : SimpleVector Int).size_ ∧
     (copyAssign (reserveCtor 5 : SimpleVector Int) (reserveCtor 5)).toList =
        (reserveCtor 5 : SimpleVector Int).toList ∧
     (copyAssign (reserveCtor 5 : SimpleVector Int) (reserveCtor 5)).capacity_ =
        (reserveCtor 5 : SimpleVector Int).size_ ∧
     (copyAssign (reserveCtor 5 : SimpleVector Int) (reserveCtor 5)).WellFormed) :=
  ⟨by decide, C10_copy_assign (reserveCtor 5) (reserveCtor 5) (by decide)⟩

theorem toList_getD {α : Type} [Inhabited α] (w : SimpleVector α) (i : Nat)
    (hi : i < w.size_) : w.toList.getD i default = w.idx i := by
  simp [SimpleVector.toList, SimpleVector.idx, ArrayPtr.get, SimpleVector.buf,
    List.getD_eq_getElem?_getD, List.getElem?_take_of_lt hi]

theorem At_eq {α : Type} [Inhabited α] (v : SimpleVector α) (i : Nat) :
    v.At i = if i < v.size_ then Except.ok (v.idx i)
             else Except.error VecError.outOfRange := by
  unfold SimpleVector.At SimpleVector.RangeCheck
  rcases Nat.lt_or_ge i v.size_ with h | h
  · simp [h, Nat.not_le.mpr h]
  · simp [Nat.not_lt.mpr h, h]

theorem recreate_contents {α : Type} [Inhabited α] (B : List α) (x : α)
    (nc pos sz : Nat) (hsz : sz ≤ B.length) (hpos : pos ≤ sz)
    (hnc : sz + 1 ≤ nc) :
    writeRange ((writeRange (List.replicate nc (default : α)) 0 (B.take pos)).set pos x)
        (pos + 1) ((B.take sz).drop pos)
      = B.take pos ++ x :: ((B.take sz).drop pos ++ List.replicate (nc - sz - 1) default) := by
  have hposB : pos ≤ B.length := le_trans hpos hsz
  have hA : (B.take pos).length = pos := length_take_of_le hposB
  have hC : ((B.take sz).drop pos).length = sz - pos := by
    simp [length_take_of_le hsz]
  have h1 : writeRange (List.replicate nc (default : α)) 0 (B.take pos)
      = B.take pos ++ List.replicate (nc - pos) default := by
    rw [writeRange_zero, List.drop_replicate, hA]
  have hm : nc - pos = (nc - pos - 1) + 1 := by omega
  have h2 : (B.take pos ++ List.replicate (nc - pos) (default : α)).set pos x
      = B.take pos ++ x :: List.replicate (nc - pos - 1) default := by
    rw [hm, List.replicate_succ, List.set_append]
    simp [hA]
  rw [h1, h2]
  unfold writeRange
  rw [hC]
  have h3 : (B.take pos ++ x :: List.replicate (nc - pos - 1) (default : α)).take (pos + 1)
      = B.take pos ++ [x] := by
    rw [List.take_append_eq_append_take, List.take_of_length_le (by rw [hA]; omega), hA]
    simp
  have h4 : (B.take pos ++ x :: List.replicate (nc - pos - 1) (default : α)).drop
        (pos + 1 + (sz - pos))
      = List.replicate (nc - sz - 1) default := by
    rw [List.drop_append_eq_append_drop, List.drop_eq_nil_of_le (by rw [hA]; omega), hA]
    have hs : pos + 1 + (sz - pos) - pos = (sz - pos) + 1 := by omega
    rw [hs, List.drop_succ_cons, List.drop_replicate]
    have : nc - pos - 1 - (sz - pos) = nc - sz - 1 := by omega
    rw [this]
    simp
  rw [h3, h4]
  simp

theorem Recreate_spec {α : Type} [Inhabited α] (v : SimpleVector α) (x : α)
    (nc pos : Nat) (h : v.WellFormed) (hpos : pos ≤ v.size_)
    (hnc : v.size_ + 1 ≤ nc) :
    (v.Recreate nc pos x).toList = v.toList.take pos ++ x :: v.toList.drop pos ∧
    (v.Recreate nc pos x).size_ = v.size_ + 1 ∧
    (v.Recreate nc pos x).capacity_ = nc ∧
    (v.Recreate nc pos x).WellFormed := by
  obtain ⟨h1, h2, h3⟩ := h
  have hnc0 : 0 < nc := by omega
  have hszB : v.size_ ≤ v.buf.length := by omega
  have hposB : pos ≤ v.buf.length := by omega
  have hbuf : (v.Recreate nc pos x).buf
      = writeRange ((writeRange (List.replicate nc (default : α)) 0
            (v.buf.take pos)).set pos x)
          (pos + 1) ((v.buf.take v.size_).drop pos) := by
    simp [SimpleVector.Recreate, ArrayPtr.ofSize, hnc0, ArrayPtr.write,
      ArrayPtr.setAt, SimpleVector.buf, ArrayPtr.contents]
  rw [recreate_contents v.buf x nc pos v.size_ hszB hpos hnc] at hbuf
  have hsome : (v.Recreate nc pos x).data_.raw_ptr.isNone = false := by
    simp [SimpleVector.Recreate, ArrayPtr.ofSize, hnc0, ArrayPtr.write,
      ArrayPtr.setAt]
  have hsz' : (v.Recreate nc pos x).size_ = v.size_ + 1 := rfl
  have hcap' : (v.Recreate nc pos x).capacity_ = nc := rfl
  have hA : (v.buf.take pos).length = pos := length_take_of_le hposB
  have hC : ((v.buf.take v.size_).drop pos).length = v.size_ - pos := by
    simp [length_take_of_le hszB]
  have htl : (v.Recreate nc pos x).toList
      = v.buf.take pos ++ x :: (v.buf.take v.size_).drop pos := by
    show (v.Recreate nc pos x).buf.take ((v.Recreate nc pos x).size_) = _
    rw [hbuf, hsz']
    rw [List.take_append_eq_append_take,
      List.take_of_length_le
        (show (List.take pos v.buf).length ≤ v.size_ + 1 by rw [hA]; omega), hA]
    have hstep : v.size_ + 1 - pos = (v.size_ - pos) + 1 := by omega
    rw [hstep, List.take_succ_cons, List.take_append_eq_append_take,
      List.take_of_length_le (le_of_eq hC), hC, Nat.sub_self, List.take_zero,
      List.append_nil]
  refine ⟨?_, hsz', hcap', ?_, ?_, ?_⟩
  · rw [htl]
    have hpt : v.toList.take pos = v.buf.take pos := by
      simp [SimpleVector.toList, List.take_take, Nat.min_eq_left hpos]
    rw [hpt]
    rfl
  · rw [hsz', hcap']
    omega
  · rw [hbuf, hcap']
    simp [hA, hC]
    omega
  · rw [hsome, hcap']
    simp
    omega

/-- C3: `PushBack` appends the item (old elements keep value and order, the
new last element — read back through the checked accessor at the old size —
is the pushed value), the size grows by one, and the capacity is unchanged
unless the array was full, in which case it becomes 1 from capacity 0 and
twice the old capacity otherwise. -/
theorem C3_pushback {α : Type} [Inhabited α] (v : SimpleVector α) (x : α)
    (h : v.WellFormed) :
    (v.PushBack x).toList = v.toList ++ [x] ∧
    (v.PushBack x).size_ = v.size_ + 1 ∧
    (v.PushBack x).capacity_ =
      (if v.size_ = v.capacity_ then
        (if v.capacity_ = 0 then 1 else v.capacity_ * 2)
       else v.capacity_) ∧
    (v.PushBack x).At v.size_ = Except.ok x ∧
    (v.PushBack x).WellFormed := by
  have hlen : v.toList.length = v.size_ := toList_length v h
  have hAt : ∀ w : SimpleVector α, w.toList = v.toList ++ [x] →
      w.size_ = v.size_ + 1 → w.At v.size_ = Except.ok x := by
    intro w htl hsz
    rw [At_eq, if_pos (by omega)]
    congr 1
    rw [← toList_getD w v.size_ (by omega), htl,
      List.getD_append_right _ _ _ _ (le_of_eq hlen), hlen, Nat.sub_self]
    rfl
  by_cases hfull : v.size_ = v.capacity_
  · have hnc : v.size_ + 1 ≤ (if v.capacity_ = 0 then 1 else v.capacity_ * 2) := by
      rcases Nat.eq_zero_or_pos v.capacity_ with h0 | h0
      · simp [h0]
        omega
      · rw [if_neg (by omega)]
        omega
    obtain ⟨htl, hsz, hcap, hwf⟩ :=
      Recreate_spec v x (if v.capacity_ = 0 then 1 else v.capacity_ * 2)
        v.size_ h (le_refl _) hnc
    have hPB : v.PushBack x
        = v.Recreate (if v.capacity_ = 0 then 1 else v.capacity_ * 2) v.size_ x := by
      simp only [SimpleVector.PushBack, if_pos hfull]
    have htl' : (v.PushBack x).toList = v.toList ++ [x] := by
      rw [hPB, htl, List.take_of_length_le (le_of_eq hlen),
        List.drop_eq_nil_of_le (le_of_eq hlen)]
    refine ⟨htl', by rw [hPB, hsz], ?_, hAt _ htl' (by rw [hPB, hsz]),
      by rw [hPB]; exact hwf⟩
    rw [hPB, hcap, if_pos hfull]
  · have hs_lt : v.size_ < v.capacity_ := Nat.lt_of_le_of_ne h.1 hfull
    obtain ⟨h1, h2, h3⟩ := h
    rcases hr : v.data_.raw_ptr with _ | l
    · exfalso
      have : v.capacity_ = 0 := h3.mp (by rw [hr]; rfl)
      omega
    · have hbuf : v.buf = l := by
        simp [SimpleVector.buf, ArrayPtr.contents, hr]
      have hlb : l.length = v.capacity_ := by
        rw [← hbuf]
        exact h2
      have hPB : v.PushBack x
          = ⟨⟨some (l.set v.size_ x)⟩, v.size_ + 1, v.capacity_⟩ := by
        simp only [SimpleVector.PushBack, if_neg hfull, ArrayPtr.setAt, hr,
          Option.map_some']
      have hbuf' : (v.PushBack x).buf = l.set v.size_ x := by
        rw [hPB]
        simp [SimpleVector.buf, ArrayPtr.contents]
      have hset : l.set v.size_ x = l.take v.size_ ++ x :: l.drop (v.size_ + 1) :=
        List.set_eq_take_cons_drop x (by omega)
      have htl' : (v.PushBack x).toList = v.toList ++ [x] := by
        show (v.PushBack x).buf.take ((v.PushBack x).size_) = _
        rw [hbuf', hPB]
        rw [hset, List.take_append_eq_append_take,
          List.take_of_length_le
            (show (l.take v.size_).length ≤ v.size_ + 1 by
              rw [length_take_of_le (show v.size_ ≤ l.length by omega)]
              omega),
          length_take_of_le (show v.size_ ≤ l.length by omega)]
        have hone : v.size_ + 1 - v.size_ = 1 := by omega
        rw [hone, List.take_succ_cons, List.take_zero]
        have hts : v.toList = l.take v.size_ := by
          rw [SimpleVector.toList, hbuf]
        rw [hts]
      have hsz' : (v.PushBack x).size_ = v.size_ + 1 := by rw [hPB]
      have hcap'' : (v.PushBack x).capacity_ = v.capacity_ := by rw [hPB]
      refine ⟨htl', hsz', by rw [hcap'', if_neg hfull], hAt _ htl' hsz', ?_, ?_, ?_⟩
      · rw [hsz', hcap'']
        omega
      · rw [hbuf', hcap'']
        simp [hlb]
      · rw [hPB]
        simp
        omega

theorem C3_pushback_witness :
    (fromList [(1 : Int), 2]).WellFormed ∧
    (((fromList [(1 : Int), 2]).PushBack 5).toList
        = (fromList [(1 : Int), 2]).toList ++ [5] ∧
     ((fromList [(1 : Int), 2]).PushBack 5).size_
        = (fromList [(1 : Int), 2]).size_ + 1 ∧
     ((fromList [(1 : Int), 2]).PushBack 5).capacity_
        = (if (fromList [(1 : Int), 2]).size_ = (fromList [(1 : Int), 2]).capacity_
           then (if (fromList [(1 : Int), 2]).capacity_ = 0 then 1
                 else (fromList [(1 : Int), 2]).capacity_ * 2)
           else (fromList [(1 : Int), 2]).capacity_) ∧
     ((fromList [(1 : Int), 2]).PushBack 5).At (fromList [(1 : Int), 2]).size_
        = Except.ok 5 ∧
     ((fromList [(1 : Int), 2]).PushBack 5).WellFormed) :=
  ⟨by decide, C3_pushback (fromList [(1 : Int), 2]) 5 (by decide)⟩

theorem set_take_succ {α : Type} (l : List α) (n : Nat) (x : α)
    (h : n < l.length) : (l.take (n + 1)).set n x = l.take n ++ [x] := by
  induction l generalizing n with
  | nil => simp at h
  | cons a t ih =>
    cases n with
    | zero => simp
    | succ k =>
      simp only [List.take_succ_cons, List.set_cons_succ, List.cons_append]
      rw [ih k (by simpa using h)]

theorem InsertInt_nonfull_spec {α : Type} [Inhabited α] (v : SimpleVector α)
    (x : α) (shift : Nat) (h : v.WellFormed) (hsh : shift ≤ v.size_)
    (hlt : v.size_ < v.capacity_) :
    (v.InsertInt shift x).1.toList
      = v.toList.take shift ++ x :: v.toList.drop shift ∧
    (v.InsertInt shift x).1.size_ = v.size_ + 1 ∧
    (v.InsertInt shift x).1.capacity_ = v.capacity_ ∧
    (v.InsertInt shift x).1.WellFormed := by
  obtain ⟨h1, h2, h3⟩ := h
  have hfull : ¬ v.size_ = v.capacity_ := by omega
  rcases hr : v.data_.raw_ptr with _ | l
  · exfalso
    have := h3.mp (by rw [hr]; rfl)
    omega
  · have hbuf : v.buf = l := by
      simp [SimpleVector.buf, ArrayPtr.contents, hr]
    have hlb : l.length = v.capacity_ := by
      rw [← hbuf]
      exact h2
    have hI : (v.InsertInt shift x).1
        = ⟨⟨some ((writeRange l (shift + 1) ((l.take v.size_).drop shift)).set shift x)⟩,
           v.size_ + 1, v.capacity_⟩ := by
      simp only [SimpleVector.InsertInt, if_neg hfull, ArrayPtr.write, ArrayPtr.setAt,
        SimpleVector.buf, ArrayPtr.contents, hr, Option.getD_some, Option.map_some']
    have hC : ((l.take v.size_).drop shift).length = v.size_ - shift := by
      simp [length_take_of_le (show v.size_ ≤ l.length by omega)]
    have hw : writeRange l (shift + 1) ((l.take v.size_).drop shift)
        = l.take (shift + 1) ++ ((l.take v.size_).drop shift ++ l.drop (v.size_ + 1)) := by
      unfold writeRange
      rw [hC]
      have hidx : shift + 1 + (v.size_ - shift) = v.size_ + 1 := by omega
      rw [hidx, List.append_assoc]
    have hset : (writeRange l (shift + 1) ((l.take v.size_).drop shift)).set shift x
        = (l.take shift ++ [x]) ++ ((l.take v.size_).drop shift ++ l.drop (v.size_ + 1)) := by
      rw [hw, List.set_append, if_pos (by
        rw [length_take_of_le (show shift + 1 ≤ l.length by omega)]
        omega), set_take_succ l shift x (by omega)]
    have htl : (v.InsertInt shift x).1.toList
        = v.toList.take shift ++ x :: v.toList.drop shift := by
      show (v.InsertInt shift x).1.buf.take ((v.InsertInt shift x).1.size_) = _
      rw [hI]
      show ((writeRange l (shift + 1) ((l.take v.size_).drop shift)).set shift x).take
          (v.size_ + 1) = _
      rw [hset, List.take_append_eq_append_take,
        List.take_of_length_le (show (l.take shift ++ [x]).length ≤ v.size_ + 1 by
          simp [length_take_of_le (show shift ≤ l.length by omega)]
          omega),
        show (l.take shift ++ [x]).length = shift + 1 by
          simp [length_take_of_le (show shift ≤ l.length by omega)]]
      have hsub : v.size_ + 1 - (shift + 1) = v.size_ - shift := by omega
      rw [hsub, List.take_append_eq_append_take, List.take_of_length_le (le_of_eq hC),
        hC, Nat.sub_self, List.take_zero, List.append_nil]
      have hpt : v.toList.take shift = l.take shift := by
        simp only [SimpleVector.toList, hbuf]
        rw [List.take_take, Nat.min_eq_left hsh]
      have hpd : v.toList.drop shift = (l.take v.size_).drop shift := by
        simp only [SimpleVector.toList, hbuf]
      rw [hpt, hpd]
      simp
    refine ⟨htl, by rw [hI], by rw [hI], ?_, ?_, ?_⟩
    · rw [hI]
      show v.size_ + 1 ≤ v.capacity_
      omega
    · rw [hI]
      show ((writeRange l (shift + 1) ((l.take v.size_).drop shift)).set shift x).length
          = v.capacity_
      rw [hset]
      simp [length_take_of_le (show shift ≤ l.length by omega), hC]
      omega
    · rw [hI]
      simp
      omega

theorem Erase_spec {α : Type} [Inhabited α] (w : SimpleVector α) (shift : Nat)
    (h : w.WellFormed) (hsh : shift < w.size_) :
    (w.Erase shift).1.toList = w.toList.take shift ++ w.toList.drop (shift + 1) ∧
    (w.Erase shift).1.size_ = w.size_ - 1 ∧
    (w.Erase shift).1.capacity_ = w.capacity_ ∧
    (w.Erase shift).1.WellFormed := by
  obtain ⟨h1, h2, h3⟩ := h
  rcases hr : w.data_.raw_ptr with _ | m
  · exfalso
    have := h3.mp (by rw [hr]; rfl)
    omega
  · have hbuf : w.buf = m := by
      simp [SimpleVector.buf, ArrayPtr.contents, hr]
    have hmb : m.length = w.capacity_ := by
      rw [← hbuf]
      exact h2
    have hE : (w.Erase shift).1
        = ⟨⟨some (writeRange m shift ((m.take w.size_).drop (shift + 1)))⟩,
           w.size_ - 1, w.capacity_⟩ := by
      simp only [SimpleVector.Erase, ArrayPtr.write, SimpleVector.buf,
        ArrayPtr.contents, hr, Option.getD_some, Option.map_some']
    have hD : ((m.take w.size_).drop (shift + 1)).length = w.size_ - (shift + 1) := by
      simp [length_take_of_le (show w.size_ ≤ m.length by omega)]
    have hw : writeRange m shift ((m.take w.size_).drop (shift + 1))
        = m.take shift ++ ((m.take w.size_).drop (shift + 1) ++ m.drop (w.size_ - 1)) := by
      unfold writeRange
      rw [hD]
      have hidx : shift + (w.size_ - (shift + 1)) = w.size_ - 1 := by omega
      rw [hidx, List.append_assoc]
    have htl : (w.Erase shift).1.toList
        = w.toList.take shift ++ w.toList.drop (shift + 1) := by
      show (w.Erase shift).1.buf.take ((w.Erase shift).1.size_) = _
      rw [hE]
      show (writeRange m shift ((m.take w.size_).drop (shift + 1))).take (w.size_ - 1) = _
      rw [hw, List.take_append_eq_append_take,
        List.take_of_length_le (show (m.take shift).length ≤ w.size_ - 1 by
          rw [length_take_of_le (show shift ≤ m.length by omega)]
          omega),
        length_take_of_le (show shift ≤ m.length by omega),
        List.take_append_eq_append_take,
        List.take_of_length_le
          (show ((m.take w.size_).drop (shift + 1)).length ≤ w.size_ - 1 - shift by
            rw [hD]
            omega),
        hD]
      have hz : w.size_ - 1 - shift - (w.size_ - (shift + 1)) = 0 := by omega
      rw [hz, List.take_zero, List.append_nil]
      have hpt : w.toList.take shift = m.take shift := by
        simp only [SimpleVector.toList, hbuf]
        rw [List.take_take, Nat.min_eq_left (by omega)]
      have hpd : w.toList.drop (shift + 1) = (m.take w.size_).drop (shift + 1) := by
        simp only [SimpleVector.toList, hbuf]
      rw [hpt, hpd]
    refine ⟨htl, by rw [hE], by rw [hE], ?_, ?_, ?_⟩
    · rw [hE]
      show w.size_ - 1 ≤ w.capacity_
      omega
    · rw [hE]
      show (writeRange m shift ((m.take w.size_).drop (shift + 1))).length = w.capacity_
      rw [hw]
      simp [length_take_of_le (show shift ≤ m.length by omega), hD]
      omega
    · rw [hE]
      simp
      omega

/-- C6: on a non-full array (size < capacity), inserting a value at the
front and then erasing the front restores the original logical contents,
size and capacity. -/
theorem C6_insert_erase_roundtrip {α : Type} [Inhabited α] (v : SimpleVector α)
    (x : α) (h : v.WellFormed) (hlt : v.size_ < v.capacity_) :
    (((v.InsertInt 0 x).1.Erase 0).1.toList = v.toList ∧
     ((v.InsertInt 0 x).1.Erase 0).1.size_ = v.size_ ∧
     ((v.InsertInt 0 x).1.Erase 0).1.capacity_ = v.capacity_) := by
  obtain ⟨htl1, hsz1, hcap1, hwf1⟩ :=
    InsertInt_nonfull_spec v x 0 h (Nat.zero_le _) hlt
  have htl1' : (v.InsertInt 0 x).1.toList = x :: v.toList := by
    rw [htl1]
    simp
  obtain ⟨htl2, hsz2, hcap2, _⟩ :=
    Erase_spec ((v.InsertInt 0 x).1) 0 hwf1 (by omega)
  refine ⟨?_, by omega, by rw [hcap2, hcap1]⟩
  rw [htl2, htl1']
  simp

theorem C6_insert_erase_roundtrip_witness :
    ((fromList [(1 : Int), 2]).Reserve 4).WellFormed ∧
    ((fromList [(1 : Int), 2]).Reserve 4).size_
      < ((fromList [(1 : Int), 2]).Reserve 4).capacity_ ∧
    (((((fromList [(1 : Int), 2]).Reserve 4).InsertInt 0 9).1.Erase 0).1.toList
        = ((fromList [(1 : Int), 2]).Reserve 4).toList ∧
     ((((fromList [(1 : Int), 2]).Reserve 4).InsertInt 0 9).1.Erase 0).1.size_
        = ((fromList [(1 : Int), 2]).Reserve 4).size_ ∧
     ((((fromList [(1 : Int), 2]).Reserve 4).InsertInt 0 9).1.Erase 0).1.capacity_
        = ((fromList [(1 : Int), 2]).Reserve 4).capacity_) :=
  ⟨by decide, by decide,
    C6_insert_erase_roundtrip ((fromList [(1 : Int), 2]).Reserve 4) 9
      (by decide) (by decide)⟩

/-- C5: `Resize(n)` always results in size `n`; for `n ≤ size` it keeps the
first `n` elements in order (and, in particular for `n < size`, the
capacity is unchanged since the new capacity is `max capacity n`); for
`n > size` it keeps all old elements at their indices and fills the slots
`[size, n)` with the default value. -/
theorem C5_resize {α : Type} [Inhabited α] (v : SimpleVector α) (n : Nat)
    (h : v.WellFormed) :
    (v.Resize n).toList =
      (if n ≤ v.size_ then v.toList.take n
       else v.toList ++ List.replicate (n - v.size_) default) ∧
    (v.Resize n).size_ = n ∧
    (v.Resize n).capacity_ = max v.capacity_ n ∧
    (v.Resize n).WellFormed := by
  have h1 := h.1
  have h2 := h.2.1
  have h3 := h.2.2
  have hlen : v.toList.length = v.size_ := toList_length v h
  by_cases hcap : n ≤ v.capacity_
  · by_cases hsz : v.size_ < n
    · -- grow within the existing capacity: FillDefault on [size_, n)
      have hcap0 : 0 < v.capacity_ := by omega
      rcases hr : v.data_.raw_ptr with _ | l
      · exfalso
        have := h3.mp (by rw [hr]; rfl)
        omega
      · have hbuf : v.buf = l := by
          simp [SimpleVector.buf, ArrayPtr.contents, hr]
        have hlb : l.length = v.capacity_ := by
          rw [← hbuf]
          exact h2
        have hR : v.Resize n
            = ⟨⟨some (writeRange l v.size_ (List.replicate (n - v.size_) default))⟩,
               n, v.capacity_⟩ := by
          simp only [SimpleVector.Resize, if_pos hcap, if_pos hsz,
            SimpleVector.FillDefault, ArrayPtr.write, hr, Option.map_some']
        have hw : writeRange l v.size_ (List.replicate (n - v.size_) (default : α))
            = l.take v.size_ ++ (List.replicate (n - v.size_) default ++ l.drop n) := by
          unfold writeRange
          rw [List.length_replicate]
          have hidx : v.size_ + (n - v.size_) = n := by omega
          rw [hidx, List.append_assoc]
        have hpre : (l.take v.size_ ++ List.replicate (n - v.size_) (default : α)).length
            = n := by
          simp [length_take_of_le (show v.size_ ≤ l.length by omega)]
          omega
        have htl : (v.Resize n).toList
            = v.toList ++ List.replicate (n - v.size_) default := by
          show (v.Resize n).buf.take ((v.Resize n).size_) = _
          rw [hR]
          show (writeRange l v.size_ (List.replicate (n - v.size_) default)).take n = _
          rw [hw, ← List.append_assoc, List.take_append_eq_append_take,
            List.take_of_length_le (le_of_eq hpre), hpre, Nat.sub_self,
            List.take_zero, List.append_nil]
          have hpt : v.toList = l.take v.size_ := by
            simp only [SimpleVector.toList, hbuf]
          rw [hpt]
        refine ⟨?_, by rw [hR], ?_, ?_, ?_, ?_⟩
        · rw [if_neg (by omega), htl]
        · rw [hR]
          show v.capacity_ = max v.capacity_ n
          omega
        · rw [hR]
          show n ≤ v.capacity_
          exact hcap
        · rw [hR]
          show (writeRange l v.size_ (List.replicate (n - v.size_) default)).length
              = v.capacity_
          rw [hw]
          simp [length_take_of_le (show v.size_ ≤ l.length by omega)]
          omega
        · rw [hR]
          simp
          omega
    · -- truncate (or keep) within capacity: only size_ changes
      have hns : n ≤ v.size_ := by omega
      have hR : v.Resize n = ⟨v.data_, n, v.capacity_⟩ := by
        simp only [SimpleVector.Resize, if_pos hcap, if_neg hsz]
      refine ⟨?_, by rw [hR], ?_, ?_, ?_, ?_⟩
      · rw [if_pos hns]
        show (v.Resize n).buf.take ((v.Resize n).size_) = _
        rw [hR]
        show v.buf.take n = v.toList.take n
        have : v.toList.take n = v.buf.take n := by
          simp only [SimpleVector.toList]
          rw [List.take_take, Nat.min_eq_left hns]
        rw [this]
      · rw [hR]
        show v.capacity_ = max v.capacity_ n
        omega
      · rw [hR]
        show n ≤ v.capacity_
        exact hcap
      · rw [hR]
        exact h2
      · rw [hR]
        exact h3
  · -- reallocating growth
    have hn0 : 0 < n := by omega
    have hns : ¬ n ≤ v.size_ := by omega
    have hR : v.Resize n
        = ⟨⟨some (writeRange (writeRange (List.replicate n default) 0 v.toList)
              v.size_ (List.replicate (n - v.size_) default))⟩, n, n⟩ := by
      simp only [SimpleVector.Resize, if_neg hcap, SimpleVector.FillDefault,
        ArrayPtr.ofSize, if_pos hn0, ArrayPtr.write, Option.map_some']
    have hw1 : writeRange (List.replicate n (default : α)) 0 v.toList
        = v.toList ++ List.replicate (n - v.size_) default := by
      rw [writeRange_zero, hlen, List.drop_replicate]
    have hLlen : (v.toList ++ List.replicate (n - v.size_) (default : α)).length = n := by
      simp [hlen]
      omega
    have hw2 : writeRange (v.toList ++ List.replicate (n - v.size_) (default : α))
          v.size_ (List.replicate (n - v.size_) default)
        = v.toList ++ List.replicate (n - v.size_) default := by
      unfold writeRange
      rw [List.length_replicate]
      have hn2 : v.size_ + (n - v.size_) = n := by omega
      rw [hn2, List.drop_eq_nil_of_le (le_of_eq hLlen), List.append_nil,
        List.take_append_eq_append_take, List.take_of_length_le (le_of_eq hlen), hlen,
        Nat.sub_self, List.take_zero, List.append_nil]
    refine ⟨?_, by rw [hR], ?_, ?_, ?_, ?_⟩
    · rw [if_neg hns]
      show (v.Resize n).buf.take ((v.Resize n).size_) = _
      rw [hR]
      show (writeRange (writeRange (List.replicate n default) 0 v.toList) v.size_
          (List.replicate (n - v.size_) default)).take n = _
      rw [hw1, hw2, List.take_of_length_le (le_of_eq hLlen)]
    · rw [hR]
      show n = max v.capacity_ n
      omega
    · rw [hR]
    · rw [hR]
      show (writeRange (writeRange (List.replicate n default) 0 v.toList) v.size_
          (List.replicate (n - v.size_) default)).length = n
      rw [hw1, hw2]
      exact hLlen
    · rw [hR]
      simp
      omega

theorem C5_resize_witness :
    (fromList [(7 : Int), 7, 7]).WellFormed ∧
    (((fromList [(7 : Int), 7, 7]).Resize 5).toList =
      (if 5 ≤ (fromList [(7 : Int), 7, 7]).size_
       then (fromList [(7 : Int), 7, 7]).toList.take 5
       else (fromList [(7 : Int), 7, 7]).toList
              ++ List.replicate (5 - (fromList [(7 : Int), 7, 7]).size_) default) ∧
     ((fromList [(7 : Int), 7, 7]).Resize 5).size_ = 5 ∧
     ((fromList [(7 : Int), 7, 7]).Resize 5).capacity_
        = max (fromList [(7 : Int), 7, 7]).capacity_ 5 ∧
     ((fromList [(7 : Int), 7, 7]).Resize 5).WellFormed) :=
  ⟨by decide, C5_resize (fromList [(7 : Int), 7, 7]) 5 (by decide)⟩

/-- C7: `Reserve(n)` with `n ≤ capacity` is the identity on the whole
state; with `n > capacity` it sets the capacity to exactly `n` while
keeping the size and the values and order of the logical elements. -/
theorem C7_reserve {α : Type} [Inhabited α] (v : SimpleVector α) (n : Nat)
    (h : v.WellFormed) :
    (n ≤ v.capacity_ → v.Reserve n = v) ∧
    (v.capacity_ < n →
      (v.Reserve n).capacity_ = n ∧ (v.Reserve n).size_ = v.size_ ∧
      (v.Reserve n).toList = v.toList ∧ (v.Reserve n).WellFormed) := by
  have h1 := h.1
  have hlen : v.toList.length = v.size_ := toList_length v h
  constructor
  · intro hle
    simp only [SimpleVector.Reserve, if_pos hle]
  · intro hlt
    have hn0 : 0 < n := by omega
    have hmin : min n v.size_ = v.size_ := Nat.min_eq_right (by omega)
    have hR : v.Reserve n
        = ⟨⟨some (writeRange (List.replicate n default) 0 (v.buf.take v.size_))⟩,
           v.size_, n⟩ := by
      simp only [SimpleVector.Reserve, if_neg (show ¬ n ≤ v.capacity_ by omega),
        hmin, ArrayPtr.ofSize, if_pos hn0, ArrayPtr.write, Option.map_some']
    have hsrc : v.buf.take v.size_ = v.toList := rfl
    have hw : writeRange (List.replicate n (default : α)) 0 (v.buf.take v.size_)
        = v.toList ++ List.replicate (n - v.size_) default := by
      rw [writeRange_zero, hsrc, hlen, List.drop_replicate]
    have hLlen : (v.toList ++ List.replicate (n - v.size_) (default : α)).length
        = n := by
      simp [hlen]
      omega
    refine ⟨by rw [hR], by rw [hR], ?_, ?_, ?_, ?_⟩
    · show (v.Reserve n).buf.take ((v.Reserve n).size_) = _
      rw [hR]
      show (writeRange (List.replicate n default) 0 (v.buf.take v.size_)).take
          v.size_ = _
      rw [hw, List.take_append_eq_append_take,
        List.take_of_length_le (le_of_eq hlen), hlen, Nat.sub_self,
        List.take_zero, List.append_nil]
    · rw [hR]
      show v.size_ ≤ n
      omega
    · rw [hR]
      show (writeRange (List.replicate n default) 0 (v.buf.take v.size_)).length = n
      rw [hw]
      exact hLlen
    · rw [hR]
      simp
      omega

theorem C7_reserve_witness :
    (fromList [(1 : Int), 2]).WellFormed ∧
    ((10 ≤ (fromList [(1 : Int), 2]).capacity_ →
        (fromList [(1 : Int), 2]).Reserve 10 = fromList [(1 : Int), 2]) ∧
     ((fromList [(1 : Int), 2]).capacity_ < 10 →
        ((fromList [(1 : Int), 2]).Reserve 10).capacity_ = 10 ∧
        ((fromList [(1 : Int), 2]).Reserve 10).size_
            = (fromList [(1 : Int), 2]).size_ ∧
        ((fromList [(1 : Int), 2]).Reserve 10).toList
            = (fromList [(1 : Int), 2]).toList ∧
        ((fromList [(1 : Int), 2]).Reserve 10).WellFormed)) :=
  ⟨by decide, C7_reserve (fromList [(1 : Int), 2]) 10 (by decide)⟩

theorem ofSizeTry_some {α : Type} [Inhabited α] (f : Nat → Bool) (n : Nat)
    (a : ArrayPtr α) (h : ArrayPtr.ofSizeTry f n = some a) :
    a = ArrayPtr.ofSize n := by
  unfold ArrayPtr.ofSizeTry at h
  unfold ArrayPtr.ofSize
  by_cases h0 : 0 < n
  · rw [if_pos h0] at h
    rw [if_pos h0]
    by_cases hf : f n = true
    · rw [if_pos hf] at h
      exact (Option.some_inj.mp h).symm
    · rw [if_neg hf] at h
      exact absurd h (by simp)
  · rw [if_neg h0] at h
    rw [if_neg h0]
    exact (Option.some_inj.mp h).symm

theorem ofSizeTry_none_iff {α : Type} [Inhabited α] (f : Nat → Bool) (n : Nat) :
    (ArrayPtr.ofSizeTry (α := α) f n) = none ↔ 0 < n ∧ f n = false := by
  unfold ArrayPtr.ofSizeTry
  by_cases h0 : 0 < n
  · by_cases hf : f n = true
    · simp [h0, hf]
    · simp [h0, hf]
  · simp [h0]

theorem RecreateTry_spec {α : Type} [Inhabited α] (f : Nat → Bool)
    (v : SimpleVector α) (nc pos : Nat) (x : α) :
    ((v.RecreateTry f nc pos x).2.isSome = true →
        (v.RecreateTry f nc pos x).1 = v) ∧
    ((v.RecreateTry f nc pos x).2 = none →
        (v.RecreateTry f nc pos x).1 = v.Recreate nc pos x) ∧
    ((v.RecreateTry f nc pos x).2.isSome = true ↔ (0 < nc ∧ f nc = false)) := by
  unfold SimpleVector.RecreateTry
  rcases hh : ArrayPtr.ofSizeTry (α := α) f nc with _ | nd
  · refine ⟨fun _ => rfl, fun hc => absurd hc (by simp), ?_⟩
    simp
    exact (ofSizeTry_none_iff f nc).mp hh
  · have hnd : nd = ArrayPtr.ofSize nc := ofSizeTry_some f nc nd hh
    refine ⟨fun hc => by simp at hc, fun _ => by rw [hnd]; rfl, ?_⟩
    simp
    intro h0c
    cases hq : f nc with
    | false =>
      have hcon := (ofSizeTry_none_iff (α := α) f nc).mpr ⟨h0c, hq⟩
      rw [hh] at hcon
      exact absurd hcon (by simp)
    | true => rfl

theorem PushBackTry_spec {α : Type} [Inhabited α] (f : Nat → Bool)
    (v : SimpleVector α) (x : α) :
    ((v.PushBackTry f x).2.isSome = true → (v.PushBackTry f x).1 = v) ∧
    ((v.PushBackTry f x).2 = none → (v.PushBackTry f x).1 = v.PushBack x) ∧
    ((v.PushBackTry f x).2.isSome = true ↔
      (v.size_ = v.capacity_ ∧
        f (if v.capacity_ = 0 then 1 else v.capacity_ * 2) = false)) := by
  by_cases hfull : v.size_ = v.capacity_
  · have hPT : v.PushBackTry f x
        = v.RecreateTry f (if v.capacity_ = 0 then 1 else v.capacity_ * 2)
            v.size_ x := by
      simp only [SimpleVector.PushBackTry, if_pos hfull]
    have hPB : v.PushBack x
        = v.Recreate (if v.capacity_ = 0 then 1 else v.capacity_ * 2) v.size_ x := by
      simp only [SimpleVector.PushBack, if_pos hfull]
    have hnc0 : 0 < (if v.capacity_ = 0 then 1 else v.capacity_ * 2) := by
      by_cases h0 : v.capacity_ = 0
      · simp [h0]
      · simp [h0]
        omega
    obtain ⟨r1, r2, r3⟩ := RecreateTry_spec f v
      (if v.capacity_ = 0 then 1 else v.capacity_ * 2) v.size_ x
    rw [hPT, hPB]
    refine ⟨r1, r2, ?_⟩
    rw [r3]
    constructor
    · rintro ⟨_, hb⟩
      exact ⟨hfull, hb⟩
    · rintro ⟨_, hb⟩
      exact ⟨hnc0, hb⟩
  · have hPT : v.PushBackTry f x
        = (⟨v.data_.setAt v.size_ x, v.size_ + 1, v.capacity_⟩, none) := by
      simp only [SimpleVector.PushBackTry, if_neg hfull]
    have hPB : v.PushBack x = ⟨v.data_.setAt v.size_ x, v.size_ + 1, v.capacity_⟩ := by
      simp only [SimpleVector.PushBack, if_neg hfull]
    rw [hPT, hPB]
    refine ⟨fun hc => by simp at hc, fun _ => rfl, ?_⟩
    simp [hfull]

theorem InsertTry_spec {α : Type} [Inhabited α] (f : Nat → Bool)
    (v : SimpleVector α) (shift : Nat) (x : α) :
    ((v.InsertTry f shift x).2.isSome = true → (v.InsertTry f shift x).1 = v) ∧
    ((v.InsertTry f shift x).2 = none →
        (v.InsertTry f shift x).1 = (v.InsertInt shift x).1) ∧
    ((v.InsertTry f shift x).2.isSome = true ↔
      (v.size_ = v.capacity_ ∧
        f (if v.capacity_ = 0 then 1 else v.capacity_ * 2) = false)) := by
  by_cases hfull : v.size_ = v.capacity_
  · have hIT : v.InsertTry f shift x
        = v.RecreateTry f (if v.capacity_ = 0 then 1 else v.capacity_ * 2)
            shift x := by
      simp only [SimpleVector.InsertTry, if_pos hfull]
    have hII : (v.InsertInt shift x).1
        = v.Recreate (if v.capacity_ = 0 then 1 else v.capacity_ * 2) shift x := by
      simp only [SimpleVector.InsertInt, if_pos hfull]
    have hnc0 : 0 < (if v.capacity_ = 0 then 1 else v.capacity_ * 2) := by
      by_cases h0 : v.capacity_ = 0
      · simp [h0]
      · simp [h0]
        omega
    obtain ⟨r1, r2, r3⟩ := RecreateTry_spec f v
      (if v.capacity_ = 0 then 1 else v.capacity_ * 2) shift x
    rw [hIT, hII]
    refine ⟨r1, r2, ?_⟩
    rw [r3]
    constructor
    · rintro ⟨_, hb⟩
      exact ⟨hfull, hb⟩
    · rintro ⟨_, hb⟩
      exact ⟨hnc0, hb⟩
  · have hIT : v.InsertTry f shift x
        = (⟨(v.data_.write (shift + 1) ((v.buf.take v.size_).drop shift)).setAt
              shift x, v.size_ + 1, v.capacity_⟩, none) := by
      simp only [SimpleVector.InsertTry, if_neg hfull]
    have hII : (v.InsertInt shift x).1
        = ⟨(v.data_.write (shift + 1) ((v.buf.take v.size_).drop shift)).setAt
              shift x, v.size_ + 1, v.capacity_⟩ := by
      simp only [SimpleVector.InsertInt, if_neg hfull]
    rw [hIT, hII]
    refine ⟨fun hc => by simp at hc, fun _ => rfl, ?_⟩
    simp [hfull]

theorem ResizeTry_spec {α : Type} [Inhabited α] (f : Nat → Bool)
    (v : SimpleVector α) (n : Nat) :
    ((v.ResizeTry f n).2.isSome = true → (v.ResizeTry f n).1 = v) ∧
    ((v.ResizeTry f n).2 = none → (v.ResizeTry f n).1 = v.Resize n) ∧
    ((v.ResizeTry f n).2.isSome = true ↔ (v.capacity_ < n ∧ f n = false)) := by
  by_cases hle : n ≤ v.capacity_
  · have hRT : v.ResizeTry f n = (v.Resize n, none) := by
      simp only [SimpleVector.ResizeTry, if_pos hle]
    rw [hRT]
    refine ⟨fun hc => by simp at hc, fun _ => rfl, ?_⟩
    simp
    omega
  · unfold SimpleVector.ResizeTry
    rw [if_neg hle]
    rcases hh : ArrayPtr.ofSizeTry (α := α) f n with _ | nd
    · refine ⟨fun _ => rfl, fun hc => absurd hc (by simp), ?_⟩
      simp
      have := (ofSizeTry_none_iff (α := α) f n).mp hh
      exact ⟨by omega, this.2⟩
    · have hnd : nd = ArrayPtr.ofSize n := ofSizeTry_some f n nd hh
      refine ⟨fun hc => by simp at hc, fun _ => ?_, ?_⟩
      · show (⟨FillDefault (nd.write 0 v.toList) v.size_ n, n, n⟩ : SimpleVector α)
            = v.Resize n
        rw [hnd]
        simp only [SimpleVector.Resize, if_neg hle]
      · simp
        intro hcn
        cases hq : f n with
        | false =>
          have hcon := (ofSizeTry_none_iff (α := α) f n).mpr ⟨by omega, hq⟩
          rw [hh] at hcon
          exact absurd hcon (by simp)
        | true => rfl

theorem ReserveTry_spec {α : Type} [Inhabited α] (f : Nat → Bool)
    (v : SimpleVector α) (n : Nat) :
    ((v.ReserveTry f n).2.isSome = true → (v.ReserveTry f n).1 = v) ∧
    ((v.ReserveTry f n).2 = none → (v.ReserveTry f n).1 = v.Reserve n) ∧
    ((v.ReserveTry f n).2.isSome = true ↔ (v.capacity_ < n ∧ f n = false)) := by
  by_cases hle : n ≤ v.capacity_
  · have hRT : v.ReserveTry f n = (v, none) := by
      simp only [SimpleVector.ReserveTry, if_pos hle]
    have hRv : v.Reserve n = v := by
      simp only [SimpleVector.Reserve, if_pos hle]
    rw [hRT, hRv]
    refine ⟨fun hc => by simp at hc, fun _ => rfl, ?_⟩
    simp
    omega
  · unfold SimpleVector.ReserveTry
    rw [if_neg hle]
    rcases hh : ArrayPtr.ofSizeTry (α := α) f n with _ | nd
    · refine ⟨fun _ => rfl, fun hc => absurd hc (by simp), ?_⟩
      simp
      have := (ofSizeTry_none_iff (α := α) f n).mp hh
      exact ⟨by omega, this.2⟩
    · have hnd : nd = ArrayPtr.ofSize n := ofSizeTry_some f n nd hh
      refine ⟨fun hc => by simp at hc, fun _ => ?_, ?_⟩
      · show (⟨nd.write 0 (v.buf.take (min n v.size_)), v.size_, n⟩ : SimpleVector α)
            = v.Reserve n
        rw [hnd]
        simp only [SimpleVector.Reserve, if_neg hle]
      · simp
        intro hcn
        cases hq : f n with
        | false =>
          have hcon := (ofSizeTry_none_iff (α := α) f n).mpr ⟨by omega, hq⟩
          rw [hh] at hcon
          exact absurd hcon (by simp)
        | true => rfl

/-- C8: under an allocation oracle, every reallocating operation
(`PushBack` and `Insert` at full capacity, `Resize` and `Reserve` beyond
capacity) propagates the allocation error and leaves the array in exactly
its prior state when the allocation of the new buffer fails — the
allocation is the first step of every reallocation path, before any
mutation of the object; on success each operation agrees with its plain
model, and the failure happens exactly when a reallocation was needed and
the oracle refuses the requested count. -/
theorem C8_alloc_failure_atomic {α : Type} [Inhabited α] (f : Nat → Bool)
    (v : SimpleVector α) (x : α) (shift n : Nat) :
    ((v.PushBackTry f x).2.isSome = true → (v.PushBackTry f x).1 = v) ∧
    ((v.PushBackTry f x).2 = none → (v.PushBackTry f x).1 = v.PushBack x) ∧
    ((v.InsertTry f shift x).2.isSome = true → (v.InsertTry f shift x).1 = v) ∧
    ((v.InsertTry f shift x).2 = none →
        (v.InsertTry f shift x).1 = (v.InsertInt shift x).1) ∧
    ((v.ResizeTry f n).2.isSome = true → (v.ResizeTry f n).1 = v) ∧
    ((v.ResizeTry f n).2 = none → (v.ResizeTry f n).1 = v.Resize n) ∧
    ((v.ReserveTry f n).2.isSome = true → (v.ReserveTry f n).1 = v) ∧
    ((v.ReserveTry f n).2 = none → (v.ReserveTry f n).1 = v.Reserve n) ∧
    ((v.PushBackTry f x).2.isSome = true ↔
      (v.size_ = v.capacity_ ∧
        f (if v.capacity_ = 0 then 1 else v.capacity_ * 2) = false)) ∧
    ((v.ResizeTry f n).2.isSome = true ↔ (v.capacity_ < n ∧ f n = false)) ∧
    ((v.ReserveTry f n).2.isSome = true ↔ (v.capacity_ < n ∧ f n = false)) := by
  obtain ⟨p1, p2, p3⟩ := PushBackTry_spec f v x
  obtain ⟨i1, i2, _⟩ := InsertTry_spec f v shift x
  obtain ⟨r1, r2, r3⟩ := ResizeTry_spec f v n
  obtain ⟨s1, s2, s3⟩ := ReserveTry_spec f v n
  exact ⟨p1, p2, i1, i2, r1, r2, s1, s2, p3, r3, s3⟩

theorem C8_alloc_failure_atomic_witness :
    ((fromList [(1 : Int), 2]).PushBackTry (fun _ => false) 3).2.isSome = true ∧
    ((fromList [(1 : Int), 2]).PushBackTry (fun _ => false) 3).1
        = fromList [(1 : Int), 2] :=
  ⟨by decide,
    (C8_alloc_failure_atomic (fun _ => false) (fromList [(1 : Int), 2]) 3 0 5).1
      (by decide)⟩
